import Mathlib

/-!
Shallow embedding of the diffusion tool in `cpp/parallel_update.cpp`.

The program reads a directed graph and an initial scalar state per node,
builds a compressed sparse representation (CSR) of *incoming* neighbors,
then runs `T` synchronous update steps, recording the per-step global mean.

Modelling conventions:
* machine reals (`double`) are modelled as `ℚ`, so all algebraic facts are
  about the exact mathematical values the code's expressions denote;
* `vector`s are Lean `List`s; reads are `getD` with the vector's fill value
  as default (an out-of-bounds read is undefined behavior in the C++ and
  never occurs on the inputs the theorems quantify over, unless a theorem
  is precisely about such an input);
* the OpenMP-parallel loop is modelled by its sequential semantics: the
  spec itself states the per-node computations are independent and the
  reduction is a sum, so the parallel program denotes the same function;
* text parsing is abstracted: a states file is a list of per-line parse
  results (`none` for a blank / comment / unparseable line), a graph file
  is a validated header integer plus a list of parsed 64-bit endpoint
  pairs.
-/

namespace ParallelUpdate

/-- Truncation performed by `static_cast<int>` on a 64-bit parsed endpoint
(line 57 of the source): two's-complement wrap into `[-2^31, 2^31)`. -/
def toInt32 (x : ℤ) : ℤ := (x + 2 ^ 31) % 2 ^ 32 - 2 ^ 31

/-- Edge ingestion (lines 50-58): each parsed `long long` endpoint pair is
narrowed to `pair<int,int>` before being stored. -/
def ingest (raw : List (ℤ × ℤ)) : List (ℤ × ℤ) :=
  raw.map (fun e => (toInt32 e.1, toInt32 e.2))

/-- The acceptance test used in both CSR passes (lines 70 and 79): the
target must lie in `[0, N)`.  The source endpoint is not examined. -/
def acceptB (N : ℕ) (e : ℤ × ℤ) : Bool := decide (0 ≤ e.2 ∧ e.2 < (N : ℤ))

/-- Sources of the kept edges whose target is `v`, in input order. -/
def bucket (edges : List (ℤ × ℤ)) (v : ℕ) : List ℤ :=
  (edges.filter (fun e => decide (e.2 = (v : ℤ)))).map Prod.fst

/-- Number of kept edges whose target is `v`. -/
def cnt (edges : List (ℤ × ℤ)) (v : ℕ) : ℕ := (bucket edges v).length

/-- Mathematical prefix-count: the number of kept edges with target below `k`. -/
def offFun (edges : List (ℤ × ℤ)) (k : ℕ) : ℕ := (Finset.range k).sum (cnt edges)

/-- Body of the in-degree pass (lines 68-72): `indeg[v]++` for every edge
whose target `v` passes the range test. -/
def indegStep (N : ℕ) (d : List ℕ) (e : ℤ × ℤ) : List ℕ :=
  if 0 ≤ e.2 ∧ e.2 < (N : ℤ) then d.set e.2.toNat (d.getD e.2.toNat 0 + 1) else d

/-- The in-degree array after pass 1 (lines 67-72). -/
def indeg (N : ℕ) (edges : List (ℤ × ℤ)) : List ℕ :=
  edges.foldl (indegStep N) (List.replicate N 0)

/-- The prefix-sum loop (lines 73-74): `offsets[i+1] = offsets[i] + indeg[i]`. -/
def prefixSums (acc : ℕ) : List ℕ → List ℕ
  | [] => [acc]
  | d :: ds => acc :: prefixSums (acc + d) ds

/-- The `offsets` array of the CSR build. -/
def offsetsOf (N : ℕ) (edges : List (ℤ × ℤ)) : List ℕ := prefixSums 0 (indeg N edges)

/-- Body of the scatter pass (lines 77-81): `nbrs[pos[v]++] = u` for every
edge whose target passes the range test. The state is `(nbrs, pos)`. -/
def scatterStep (N : ℕ) (st : List ℤ × List ℕ) (e : ℤ × ℤ) : List ℤ × List ℕ :=
  if 0 ≤ e.2 ∧ e.2 < (N : ℤ) then
    (st.1.set (st.2.getD e.2.toNat 0) e.1, st.2.set e.2.toNat (st.2.getD e.2.toNat 0 + 1))
  else st

/-- The CSR build (lines 67-81): in-degree pass, prefix sum, then scatter
into a neighbor array prefilled with the sentinel `-1`. -/
def build_csr (N : ℕ) (edges : List (ℤ × ℤ)) : List ℕ × List ℤ :=
  let offs := offsetsOf N edges
  let res := edges.foldl (scatterStep N) (List.replicate (offs.getD N 0) (-1 : ℤ), offs)
  (offs, res.1)

/-- One node's update inside the kernel loop (lines 154-165): with
`s = offsets[v]`, `e = offsets[v+1]`, keep the state when the in-slice is
empty, otherwise mix with the mean of the in-neighbor states. -/
def nodeNext (alpha : ℚ) (offs : List ℕ) (nbrs : List ℤ) (states : List ℚ) (v : ℕ) : ℚ :=
  let s := offs.getD v 0
  let e := offs.getD (v + 1) 0
  if e = s then states.getD v 0
  else
    let acc := ((List.range (e - s)).map
      (fun j => states.getD (nbrs.getD (s + j) 0).toNat 0)).sum
    (1 - alpha) * states.getD v 0 + alpha * (acc / ((e - s : ℕ) : ℚ))

/-- One synchronous step (lines 146-200): the loop over `v` writes
`new_states[v]` and accumulates `global_sum += new_states[v]`.  Returns
`(new_states, global_sum)`. -/
def stepKernel (N : ℕ) (alpha : ℚ) (offs : List ℕ) (nbrs : List ℤ) (states : List ℚ) :
    List ℚ × ℚ :=
  (List.range N).foldl
    (fun st v => (st.1.set v (nodeNext alpha offs nbrs states v),
                  st.2 + nodeNext alpha offs nbrs states v))
    (List.replicate N 0, 0)

/-- The driver loop (lines 146-217): per step, run the kernel, swap the
buffers, and append `global_sum / N` to the history accumulator. -/
def runLoop (N : ℕ) (alpha : ℚ) (offs : List ℕ) (nbrs : List ℤ) :
    ℕ → List ℚ → List ℚ → List ℚ × List ℚ
  | 0, states, history => (states, history)
  | Nat.succ T, states, history =>
    runLoop N alpha offs nbrs T (stepKernel N alpha offs nbrs states).1
      (history ++ [(stepKernel N alpha offs nbrs states).2 / (N : ℚ)])

/-- A full run of `T` steps from an initial state vector, producing the
final states and the history. -/
def run (N : ℕ) (alpha : ℚ) (offs : List ℕ) (nbrs : List ℤ) (T : ℕ) (states : List ℚ) :
    List ℚ × List ℚ :=
  runLoop N alpha offs nbrs T states []

/-- The state vector after `t` steps. -/
def stateAt (N : ℕ) (alpha : ℚ) (offs : List ℕ) (nbrs : List ℤ) : ℕ → List ℚ → List ℚ
  | 0, states => states
  | Nat.succ t, states => stateAt N alpha offs nbrs t (stepKernel N alpha offs nbrs states).1

/-- The history produced by `t` steps. -/
def historyOf (N : ℕ) (alpha : ℚ) (offs : List ℕ) (nbrs : List ℤ) : ℕ → List ℚ → List ℚ
  | 0, _ => []
  | Nat.succ t, states =>
    (stepKernel N alpha offs nbrs states).2 / (N : ℚ) ::
      historyOf N alpha offs nbrs t (stepKernel N alpha offs nbrs states).1

/-- The states-reading loop (lines 86-95).  Each element of `lines` is the
parse result of one line of the states file (`none` when the line is blank,
a comment, or fails to parse as a real).  The loop fills a zero-filled
vector of length `N` and counts how many entries were filled; it stops
consuming values once `read_count` reaches `N`. -/
def readStep (N : ℕ) (st : List ℚ × ℕ) (l : Option ℚ) : List ℚ × ℕ :=
  if st.2 < N then
    match l with
    | none => st
    | some val => (st.1.set st.2 val, st.2 + 1)
  else st

def readStates (N : ℕ) (lines : List (Option ℚ)) : List ℚ × ℕ :=
  lines.foldl (readStep N) (List.replicate N 0, 0)

/-- The driver (function `main`), from the point where the graph header has
been parsed: validate `N` (exit 2 on failure, line 43), ingest and build
the CSR, read the states (exit 4 when fewer than `N` parsed entries, lines
97-100), then run the `T` steps and emit the outputs.  An `Except.error`
models a fatal exit: the program returns before either output file is
opened, so no output is produced. -/
def driver (Nll : ℤ) (rawEdges : List (ℤ × ℤ)) (stateLines : List (Option ℚ))
    (T : ℕ) (alpha : ℚ) : Except ℕ (List ℚ × List ℚ) :=
  if Nll ≤ 0 then Except.error 2
  else if (readStates Nll.toNat stateLines).2 < Nll.toNat then Except.error 4
  else Except.ok (run Nll.toNat alpha (build_csr Nll.toNat (ingest rawEdges)).1
    (build_csr Nll.toNat (ingest rawEdges)).2 T (readStates Nll.toNat stateLines).1)

/-- Invariant of the scatter loop after the edges in `done` have been
processed: `pos[v]` sits at the start of slice `v` plus the number of kept
edges with target `v` seen so far, and the filled part of each slice holds
exactly the sources seen so far, in input order. -/
def scatterInv (N : ℕ) (edges done : List (ℤ × ℤ)) (st : List ℤ × List ℕ) : Prop :=
  st.1.length = offFun edges N ∧ st.2.length = N + 1 ∧
  (∀ v, v < N → st.2.getD v 0 = offFun edges v + cnt done v) ∧
  (∀ v, v < N → ∀ k, k < cnt done v →
    st.1.getD (offFun edges v + k) 0 = (bucket done v).getD k 0)

/-! ### Generic list helpers -/

lemma getD_set_self {α : Type} (l : List α) (i : ℕ) (a d : α) (h : i < l.length) :
    (l.set i a).getD i d = a := by
  simp [List.getD_eq_getElem?_getD, List.getElem?_set_self, h]

lemma getD_set_ne {α : Type} (l : List α) (i j : ℕ) (a d : α) (hij : i ≠ j) :
    (l.set i a).getD j d = l.getD j d := by
  simp [List.getD_eq_getElem?_getD, List.getElem?_set_ne hij]

lemma getD_append_left {α : Type} (l₁ l₂ : List α) (n : ℕ) (d : α) (h : n < l₁.length) :
    (l₁ ++ l₂).getD n d = l₁.getD n d := by
  simp [List.getD_eq_getElem?_getD, List.getElem?_append_left h]

lemma getD_concat_length {α : Type} (l : List α) (a d : α) :
    (l ++ [a]).getD l.length d = a := by
  simp [List.getD_eq_getElem?_getD]

lemma getD_replicate {α : Type} (n j : ℕ) (a d : α) (h : j < n) :
    (List.replicate n a).getD j d = a := by
  simp [List.getD_eq_getElem?_getD, List.getElem?_replicate, h]

lemma list_eq_map_range_getD (l : List ℚ) :
    l = (List.range l.length).map (fun i => l.getD i 0) := by
  apply List.ext_getElem (by simp)
  intro i h1 h2
  simp [List.getD_eq_getElem?_getD, List.getElem?_eq_getElem h1]

/-! ### Bucket and prefix-count algebra -/

lemma bucket_append (l₁ l₂ : List (ℤ × ℤ)) (v : ℕ) :
    bucket (l₁ ++ l₂) v = bucket l₁ v ++ bucket l₂ v := by
  simp [bucket, List.filter_append]

lemma cnt_append (l₁ l₂ : List (ℤ × ℤ)) (v : ℕ) :
    cnt (l₁ ++ l₂) v = cnt l₁ v + cnt l₂ v := by
  simp [cnt, bucket_append]

lemma bucket_single_eq (e : ℤ × ℤ) (v : ℕ) (h : e.2 = (v : ℤ)) :
    bucket [e] v = [e.1] := by
  simp [bucket, List.filter_cons, h]

lemma bucket_single_ne (e : ℤ × ℤ) (v : ℕ) (h : e.2 ≠ (v : ℤ)) :
    bucket [e] v = [] := by
  simp [bucket, List.filter_cons, h]

lemma cnt_single_eq (e : ℤ × ℤ) (v : ℕ) (h : e.2 = (v : ℤ)) : cnt [e] v = 1 := by
  simp [cnt, bucket_single_eq e v h]

lemma cnt_single_ne (e : ℤ × ℤ) (v : ℕ) (h : e.2 ≠ (v : ℤ)) : cnt [e] v = 0 := by
  simp [cnt, bucket_single_ne e v h]

lemma offFun_zero (edges : List (ℤ × ℤ)) : offFun edges 0 = 0 := by
  simp [offFun]

lemma offFun_succ (edges : List (ℤ × ℤ)) (k : ℕ) :
    offFun edges (k + 1) = offFun edges k + cnt edges k := by
  simp [offFun, Finset.sum_range_succ]

lemma offFun_mono (edges : List (ℤ × ℤ)) {a b : ℕ} (h : a ≤ b) :
    offFun edges a ≤ offFun edges b := by
  apply Finset.sum_le_sum_of_subset
  exact Finset.range_subset.mpr h

/-- Each kept edge contributes to exactly one bucket, so the prefix count at
`N` is the number of kept edges. -/
lemma offFun_total (N : ℕ) (edges : List (ℤ × ℤ)) :
    offFun edges N = (edges.filter (acceptB N)).length := by
  induction edges with
  | nil => simp [offFun, cnt, bucket]
  | cons e es ih =>
    have hsplit : e :: es = [e] ++ es := rfl
    rw [hsplit, List.filter_append]
    have hsum : offFun ([e] ++ es) N =
        (Finset.range N).sum (fun v => cnt [e] v) + offFun es N := by
      simp only [offFun, cnt_append, Finset.sum_add_distrib]
    rw [hsum, ih]
    by_cases hacc : 0 ≤ e.2 ∧ e.2 < (N : ℤ)
    · have hw : e.2.toNat < N := by omega
      have hsingle : (Finset.range N).sum (fun v => cnt [e] v) = 1 := by
        have hrw : ∀ v ∈ Finset.range N, cnt [e] v = if v = e.2.toNat then 1 else 0 := by
          intro v hv
          by_cases hveq : v = e.2.toNat
          · rw [hveq, cnt_single_eq e e.2.toNat (by omega), if_pos rfl]
          · rw [cnt_single_ne e v (by omega), if_neg hveq]
        rw [Finset.sum_congr rfl hrw, Finset.sum_ite_eq' (Finset.range N) e.2.toNat
          (fun _ => 1)]
        simp [hw]
      have hkeep : List.filter (acceptB N) [e] = [e] := by
        simp [acceptB, List.filter_cons, hacc]
      rw [hsingle, hkeep]
      simp [Nat.add_comm]
    · have hnone : (Finset.range N).sum (fun v => cnt [e] v) = 0 := by
        apply Finset.sum_eq_zero
        intro v hv
        exact cnt_single_ne e v (by simp at hv; omega)
      have hdrop : List.filter (acceptB N) [e] = [] := by
        simp [acceptB, List.filter_cons, hacc]
      rw [hnone, hdrop]
      simp

/-! ### In-degree pass -/

lemma indeg_foldl_length (N : ℕ) (edges : List (ℤ × ℤ)) (d : List ℕ) :
    (edges.foldl (indegStep N) d).length = d.length := by
  induction edges generalizing d with
  | nil => rfl
  | cons e es ih =>
    rw [List.foldl_cons, ih]
    by_cases h : 0 ≤ e.2 ∧ e.2 < (N : ℤ) <;> simp [indegStep, h]

lemma indeg_length (N : ℕ) (edges : List (ℤ × ℤ)) : (indeg N edges).length = N := by
  rw [indeg, indeg_foldl_length]
  exact List.length_replicate N 0

lemma indeg_foldl_getD (N : ℕ) (edges : List (ℤ × ℤ)) (d : List ℕ) (v : ℕ)
    (hv : v < N) (hd : d.length = N) :
    (edges.foldl (indegStep N) d).getD v 0 = d.getD v 0 + cnt edges v := by
  induction edges generalizing d with
  | nil => simp [cnt, bucket]
  | cons e es ih =>
    have hsplit : e :: es = [e] ++ es := rfl
    rw [List.foldl_cons]
    by_cases h : 0 ≤ e.2 ∧ e.2 < (N : ℤ)
    · have hstep : indegStep N d e = d.set e.2.toNat (d.getD e.2.toNat 0 + 1) := by
        simp [indegStep, h]
      rw [hstep, ih _ (by simp [hd])]
      by_cases hveq : e.2.toNat = v
      · rw [hsplit, cnt_append, cnt_single_eq e v (by omega)]
        rw [← hveq, getD_set_self _ _ _ _ (by omega)]
        omega
      · rw [hsplit, cnt_append, cnt_single_ne e v (by omega)]
        rw [getD_set_ne _ _ _ _ _ hveq]
        omega
    · have hstep : indegStep N d e = d := by simp [indegStep, h]
      rw [hstep, ih _ hd, hsplit, cnt_append, cnt_single_ne e v (by omega)]
      omega

lemma indeg_getD (N : ℕ) (edges : List (ℤ × ℤ)) (v : ℕ) (hv : v < N) :
    (indeg N edges).getD v 0 = cnt edges v := by
  rw [indeg, indeg_foldl_getD N edges _ v hv (by simp)]
  rw [getD_replicate _ _ _ _ hv]
  omega

/-! ### Prefix sums -/

lemma prefixSums_length (l : List ℕ) (a : ℕ) : (prefixSums a l).length = l.length + 1 := by
  induction l generalizing a with
  | nil => rfl
  | cons d ds ih => simp [prefixSums, ih]

lemma prefixSums_getD (l : List ℕ) (a k : ℕ) (hk : k ≤ l.length) :
    (prefixSums a l).getD k 0 = a + (l.take k).sum := by
  induction l generalizing a k with
  | nil =>
    have hk0 : k = 0 := by simpa using hk
    subst hk0
    simp [prefixSums]
  | cons d ds ih =>
    cases k with
    | zero => simp [prefixSums]
    | succ k' =>
      rw [prefixSums]
      have : (a :: prefixSums (a + d) ds).getD (k' + 1) 0 =
          (prefixSums (a + d) ds).getD k' 0 := rfl
      rw [this, ih (a + d) k' (by simpa using hk)]
      simp [List.take_succ_cons, Nat.add_assoc]

lemma sum_take_getD (l : List ℕ) (k : ℕ) (hk : k ≤ l.length) :
    (l.take k).sum = (Finset.range k).sum (fun i => l.getD i 0) := by
  induction k with
  | zero => simp
  | succ k' ih =>
    have hklt : k' < l.length := by omega
    rw [Finset.sum_range_succ, ← ih (by omega)]
    rw [List.take_succ, List.getElem?_eq_getElem hklt]
    rw [List.getD_eq_getElem l 0 hklt]
    simp only [Option.toList_some, List.sum_append, List.sum_cons, List.sum_nil]
    omega

lemma offsetsOf_length (N : ℕ) (edges : List (ℤ × ℤ)) :
    (offsetsOf N edges).length = N + 1 := by
  rw [offsetsOf, prefixSums_length, indeg_length]

lemma offsetsOf_getD (N : ℕ) (edges : List (ℤ × ℤ)) (k : ℕ) (hk : k ≤ N) :
    (offsetsOf N edges).getD k 0 = offFun edges k := by
  rw [offsetsOf, prefixSums_getD _ _ _ (by rw [indeg_length]; exact hk)]
  rw [sum_take_getD _ _ (by rw [indeg_length]; exact hk)]
  rw [Nat.zero_add, offFun]
  apply Finset.sum_congr rfl
  intro v hv
  exact indeg_getD N edges v (by simp at hv; omega)

lemma getD_take {α : Type} (l : List α) (c i : ℕ) (d : α) (h : i < c) :
    (l.take c).getD i d = l.getD i d := by
  simp [List.getD_eq_getElem?_getD, List.getElem?_take, h]

lemma getD_drop {α : Type} (l : List α) (n i : ℕ) (d : α) :
    (l.drop n).getD i d = l.getD (n + i) d := by
  simp [List.getD_eq_getElem?_getD, List.getElem?_drop]

/-! ### Scatter pass invariant -/

lemma scatterInv_step (N : ℕ) (edges done rest : List (ℤ × ℤ)) (e : ℤ × ℤ)
    (hsplit : edges = done ++ e :: rest) (st : List ℤ × List ℕ)
    (hInv : scatterInv N edges done st) :
    scatterInv N edges (done ++ [e]) (scatterStep N st e) := by
  obtain ⟨hlen1, hlen2, hpos, hsl⟩ := hInv
  by_cases hacc : 0 ≤ e.2 ∧ e.2 < (N : ℤ)
  · obtain ⟨h0, hNe⟩ := hacc
    have hwv : ((e.2.toNat : ℤ)) = e.2 := Int.toNat_of_nonneg h0
    have hwN : e.2.toNat < N := by omega
    have hpw := hpos e.2.toNat hwN
    have hcnt1 : cnt (e :: rest) e.2.toNat = 1 + cnt rest e.2.toNat := by
      rw [show e :: rest = [e] ++ rest from rfl, cnt_append, cnt_single_eq e _ hwv.symm]
    have hcntE : cnt edges e.2.toNat = cnt done e.2.toNat + (1 + cnt rest e.2.toNat) := by
      rw [hsplit, cnt_append, hcnt1]
    have hoffsucc : offFun edges (e.2.toNat + 1) =
        offFun edges e.2.toNat + cnt edges e.2.toNat := offFun_succ edges e.2.toNat
    have hmono : offFun edges (e.2.toNat + 1) ≤ offFun edges N := offFun_mono edges hwN
    have hi_lt : offFun edges e.2.toNat + cnt done e.2.toNat < offFun edges N := by omega
    have hstep : scatterStep N st e =
        (st.1.set (st.2.getD e.2.toNat 0) e.1,
         st.2.set e.2.toNat (st.2.getD e.2.toNat 0 + 1)) := by
      simp [scatterStep, h0, hNe]
    rw [hstep, hpw]
    refine ⟨by simp [hlen1], by simp [hlen2], ?_, ?_⟩
    · intro v hv
      by_cases hvw : v = e.2.toNat
      · subst hvw
        rw [getD_set_self _ _ _ _ (by omega)]
        rw [cnt_append, cnt_single_eq e _ hwv.symm]
        omega
      · rw [getD_set_ne _ _ _ _ _ (fun hh => hvw hh.symm)]
        rw [hpos v hv, cnt_append, cnt_single_ne e v (by omega)]
        omega
    · intro v hv k hk
      by_cases hvw : v = e.2.toNat
      · subst hvw
        rw [cnt_append, cnt_single_eq e _ hwv.symm] at hk
        rw [bucket_append, bucket_single_eq e _ hwv.symm]
        by_cases hkend : k = cnt done e.2.toNat
        · subst hkend
          rw [getD_set_self _ _ _ _ (by omega)]
          exact (getD_concat_length (bucket done e.2.toNat) e.1 0).symm
        · have hklt : k < cnt done e.2.toNat := by omega
          rw [getD_set_ne _ _ _ _ _ (by omega)]
          rw [getD_append_left (bucket done e.2.toNat) [e.1] k 0 hklt]
          exact hsl e.2.toNat hv k hklt
      · have hne : e.2 ≠ (v : ℤ) := by omega
        rw [cnt_append, cnt_single_ne e v hne] at hk
        rw [bucket_append, bucket_single_ne e v hne, List.append_nil]
        have hdone_le : cnt done v ≤ cnt edges v := by
          have : cnt edges v = cnt done v + cnt (e :: rest) v := by
            rw [hsplit, cnt_append]
          omega
        have hne2 : offFun edges e.2.toNat + cnt done e.2.toNat ≠ offFun edges v + k := by
          rcases Nat.lt_or_ge v e.2.toNat with hlt | hge
          · have h2 : offFun edges (v + 1) ≤ offFun edges e.2.toNat := offFun_mono edges hlt
            have h3 := offFun_succ edges v
            omega
          · have hlt2 : e.2.toNat < v := by omega
            have h2 : offFun edges (e.2.toNat + 1) ≤ offFun edges v := offFun_mono edges hlt2
            omega
        rw [getD_set_ne _ _ _ _ _ hne2]
        exact hsl v hv k (by omega)
  · have hstep : scatterStep N st e = st := by simp [scatterStep, hacc]
    rw [hstep]
    refine ⟨hlen1, hlen2, ?_, ?_⟩
    · intro v hv
      rw [hpos v hv, cnt_append, cnt_single_ne e v (by omega)]
      omega
    · intro v hv k hk
      rw [cnt_append, cnt_single_ne e v (by omega)] at hk
      rw [bucket_append, bucket_single_ne e v (by omega), List.append_nil]
      exact hsl v hv k (by omega)

lemma scatterInv_fold (N : ℕ) (edges : List (ℤ × ℤ)) :
    ∀ rest done st, edges = done ++ rest → scatterInv N edges done st →
      scatterInv N edges edges (rest.foldl (scatterStep N) st) := by
  intro rest
  induction rest with
  | nil =>
    intro done st hsplit hInv
    rw [List.append_nil] at hsplit
    rw [List.foldl_nil, hsplit]
    rw [hsplit] at hInv
    exact hInv
  | cons e rs ih =>
    intro done st hsplit hInv
    rw [List.foldl_cons]
    apply ih (done ++ [e])
    · rw [hsplit]
      simp
    · exact scatterInv_step N edges done rs e hsplit st hInv

lemma scatterInv_init (N : ℕ) (edges : List (ℤ × ℤ)) :
    scatterInv N edges []
      (List.replicate ((offsetsOf N edges).getD N 0) (-1 : ℤ), offsetsOf N edges) := by
  refine ⟨?_, ?_, ?_, ?_⟩
  · rw [List.length_replicate]
    exact offsetsOf_getD N edges N (le_refl N)
  · exact offsetsOf_length N edges
  · intro v hv
    rw [offsetsOf_getD N edges v (by omega)]
    simp [cnt, bucket]
  · intro v hv k hk
    simp [cnt, bucket] at hk

lemma build_csr_inv (N : ℕ) (edges : List (ℤ × ℤ)) :
    scatterInv N edges edges
      (edges.foldl (scatterStep N)
        (List.replicate ((offsetsOf N edges).getD N 0) (-1 : ℤ), offsetsOf N edges)) :=
  scatterInv_fold N edges edges [] _ (by simp) (scatterInv_init N edges)

lemma build_csr_fst (N : ℕ) (edges : List (ℤ × ℤ)) :
    (build_csr N edges).1 = offsetsOf N edges := rfl

lemma build_csr_nbrs_length (N : ℕ) (edges : List (ℤ × ℤ)) :
    (build_csr N edges).2.length = offFun edges N :=
  (build_csr_inv N edges).1

lemma build_csr_nbrs_getD (N : ℕ) (edges : List (ℤ × ℤ)) (v k : ℕ)
    (hv : v < N) (hk : k < cnt edges v) :
    (build_csr N edges).2.getD (offFun edges v + k) 0 = (bucket edges v).getD k 0 :=
  (build_csr_inv N edges).2.2.2 v hv k hk

lemma offFun_slice_le (edges : List (ℤ × ℤ)) {v N : ℕ} (hv : v < N) :
    offFun edges v + cnt edges v ≤ offFun edges N := by
  have h1 := offFun_succ edges v
  have h2 := offFun_mono edges (show v + 1 ≤ N from hv)
  omega

/-- The slice of the neighbor array belonging to target `v` is exactly the
list of sources of the kept edges with target `v`, in input order. -/
lemma build_csr_slice (N : ℕ) (edges : List (ℤ × ℤ)) (v : ℕ) (hv : v < N) :
    ((build_csr N edges).2.drop (offFun edges v)).take (cnt edges v) = bucket edges v := by
  have hlen : (build_csr N edges).2.length = offFun edges N := build_csr_nbrs_length N edges
  have hle : offFun edges v + cnt edges v ≤ offFun edges N := offFun_slice_le edges hv
  apply List.ext_getElem
  · rw [List.length_take, List.length_drop, hlen]
    have hb : (bucket edges v).length = cnt edges v := rfl
    omega
  · intro i h1 h2
    have hcnt : i < cnt edges v := h2
    rw [← List.getD_eq_getElem _ 0 h1, ← List.getD_eq_getElem _ 0 h2]
    rw [getD_take _ _ _ _ hcnt, getD_drop]
    exact build_csr_nbrs_getD N edges v i hv hcnt

lemma prefixSums_replicate_zero : ∀ n : ℕ, prefixSums 0 (List.replicate n 0) =
    List.replicate (n + 1) 0 := by
  intro n
  induction n with
  | zero => rfl
  | succ n' ih => simp [List.replicate_succ, prefixSums, ih]

lemma build_csr_nil (N : ℕ) :
    (build_csr N []).1 = List.replicate (N + 1) 0 ∧ (build_csr N []).2 = [] := by
  constructor
  · rw [build_csr_fst, offsetsOf, indeg, List.foldl_nil, prefixSums_replicate_zero]
  · have h := build_csr_nbrs_length N []
    have h0 : offFun ([] : List (ℤ × ℤ)) N = 0 := by
      simp [offFun, cnt, bucket]
    rw [h0] at h
    exact List.eq_nil_of_length_eq_zero h

/-- Every position of the neighbor array falls inside the slice of exactly
one target (existence part). -/
lemma offFun_decompose (edges : List (ℤ × ℤ)) :
    ∀ N j, j < offFun edges N → ∃ v, v < N ∧ offFun edges v ≤ j ∧ j < offFun edges (v + 1) := by
  intro N
  induction N with
  | zero => intro j hj; simp [offFun] at hj
  | succ N' ih =>
    intro j hj
    by_cases hlt : j < offFun edges N'
    · obtain ⟨v, hv, h1, h2⟩ := ih j hlt
      exact ⟨v, by omega, h1, h2⟩
    · exact ⟨N', by omega, by omega, hj⟩

/-! ### Kernel characterization -/

lemma step_foldl_spec (f : ℕ → ℚ) (acc : List ℚ) (s0 : ℚ) :
    ∀ K, K ≤ acc.length →
      (((List.range K).foldl (fun st v => (st.1.set v (f v), st.2 + f v)) (acc, s0)).1.length
        = acc.length) ∧
      (((List.range K).foldl (fun st v => (st.1.set v (f v), st.2 + f v)) (acc, s0)).2
        = s0 + (Finset.range K).sum f) ∧
      (∀ j, ((List.range K).foldl (fun st v => (st.1.set v (f v), st.2 + f v)) (acc, s0)).1.getD j 0
        = if j < K then f j else acc.getD j 0) := by
  intro K
  induction K with
  | zero =>
    intro _
    refine ⟨by simp, by simp, ?_⟩
    intro j
    simp
  | succ K' ih =>
    intro hK
    obtain ⟨ihl, ihs, ihg⟩ := ih (by omega)
    rw [List.range_succ, List.foldl_append]
    refine ⟨by simpa using ihl, ?_, ?_⟩
    · rw [List.foldl_cons, List.foldl_nil]
      show (_ : List ℚ × ℚ).2 + f K' = _
      rw [ihs, Finset.sum_range_succ]
      ring
    · intro j
      rw [List.foldl_cons, List.foldl_nil]
      show ((_ : List ℚ × ℚ).1.set K' (f K')).getD j 0 = _
      by_cases hj : j = K'
      · subst hj
        rw [getD_set_self _ _ _ _ (by omega)]
        simp
      · rw [getD_set_ne _ _ _ _ _ (fun hh => hj hh.symm), ihg j]
        by_cases hj2 : j < K'
        · rw [if_pos hj2, if_pos (by omega)]
        · rw [if_neg hj2, if_neg (by omega)]

lemma stepKernel_fst_length (N : ℕ) (alpha : ℚ) (offs : List ℕ) (nbrs : List ℤ)
    (states : List ℚ) : (stepKernel N alpha offs nbrs states).1.length = N := by
  have h := (step_foldl_spec (nodeNext alpha offs nbrs states) (List.replicate N 0) 0 N
    (by simp)).1
  simpa using h

lemma stepKernel_fst_getD (N : ℕ) (alpha : ℚ) (offs : List ℕ) (nbrs : List ℤ)
    (states : List ℚ) (v : ℕ) (hv : v < N) :
    (stepKernel N alpha offs nbrs states).1.getD v 0 = nodeNext alpha offs nbrs states v := by
  have h := (step_foldl_spec (nodeNext alpha offs nbrs states) (List.replicate N 0) 0 N
    (by simp)).2.2 v
  rw [if_pos hv] at h
  exact h

lemma stepKernel_snd (N : ℕ) (alpha : ℚ) (offs : List ℕ) (nbrs : List ℤ)
    (states : List ℚ) :
    (stepKernel N alpha offs nbrs states).2 =
      (Finset.range N).sum (nodeNext alpha offs nbrs states) := by
  have h := (step_foldl_spec (nodeNext alpha offs nbrs states) (List.replicate N 0) 0 N
    (by simp)).2.1
  simpa using h

lemma sum_map_range (f : ℕ → ℚ) : ∀ n, ((List.range n).map f).sum = (Finset.range n).sum f := by
  intro n
  induction n with
  | zero => simp
  | succ n' ih =>
    rw [List.range_succ, List.map_append, List.sum_append, Finset.sum_range_succ, ih]
    simp

lemma stepKernel_fst_eq_map (N : ℕ) (alpha : ℚ) (offs : List ℕ) (nbrs : List ℤ)
    (states : List ℚ) :
    (stepKernel N alpha offs nbrs states).1 =
      (List.range N).map (nodeNext alpha offs nbrs states) := by
  apply List.ext_getElem (by simp [stepKernel_fst_length])
  intro i h1 h2
  have hi : i < N := by simpa using h2
  rw [← List.getD_eq_getElem _ 0 h1, ← List.getD_eq_getElem _ 0 h2]
  rw [stepKernel_fst_getD N alpha offs nbrs states i hi]
  simp [List.getD_eq_getElem?_getD, List.getElem?_map, List.getElem?_range hi]

lemma stepKernel_snd_eq_sum_fst (N : ℕ) (alpha : ℚ) (offs : List ℕ) (nbrs : List ℤ)
    (states : List ℚ) :
    (stepKernel N alpha offs nbrs states).2 = ((stepKernel N alpha offs nbrs states).1).sum := by
  rw [stepKernel_snd, stepKernel_fst_eq_map, sum_map_range]

/-! ### Run loop characterization -/

lemma runLoop_eq (N : ℕ) (alpha : ℚ) (offs : List ℕ) (nbrs : List ℤ) :
    ∀ T states history, runLoop N alpha offs nbrs T states history =
      (stateAt N alpha offs nbrs T states, history ++ historyOf N alpha offs nbrs T states) := by
  intro T
  induction T with
  | zero =>
    intro states history
    simp [runLoop, stateAt, historyOf]
  | succ T' ih =>
    intro states history
    rw [show runLoop N alpha offs nbrs (T' + 1) states history =
      runLoop N alpha offs nbrs T' (stepKernel N alpha offs nbrs states).1
        (history ++ [(stepKernel N alpha offs nbrs states).2 / (N : ℚ)]) from rfl]
    rw [ih]
    rw [show stateAt N alpha offs nbrs (T' + 1) states =
      stateAt N alpha offs nbrs T' (stepKernel N alpha offs nbrs states).1 from rfl]
    rw [show historyOf N alpha offs nbrs (T' + 1) states =
      (stepKernel N alpha offs nbrs states).2 / (N : ℚ) ::
        historyOf N alpha offs nbrs T' (stepKernel N alpha offs nbrs states).1 from rfl]
    simp

lemma run_eq (N : ℕ) (alpha : ℚ) (offs : List ℕ) (nbrs : List ℤ) (T : ℕ) (states : List ℚ) :
    run N alpha offs nbrs T states =
      (stateAt N alpha offs nbrs T states, historyOf N alpha offs nbrs T states) := by
  rw [run, runLoop_eq]
  simp

lemma historyOf_length (N : ℕ) (alpha : ℚ) (offs : List ℕ) (nbrs : List ℤ) :
    ∀ T states, (historyOf N alpha offs nbrs T states).length = T := by
  intro T
  induction T with
  | zero => intro states; rfl
  | succ T' ih =>
    intro states
    rw [show historyOf N alpha offs nbrs (T' + 1) states =
      (stepKernel N alpha offs nbrs states).2 / (N : ℚ) ::
        historyOf N alpha offs nbrs T' (stepKernel N alpha offs nbrs states).1 from rfl]
    simp [ih]

lemma stateAt_length (N : ℕ) (alpha : ℚ) (offs : List ℕ) (nbrs : List ℤ) :
    ∀ T states, states.length = N → (stateAt N alpha offs nbrs T states).length = N := by
  intro T
  induction T with
  | zero => intro states h; exact h
  | succ T' ih =>
    intro states _
    exact ih (stepKernel N alpha offs nbrs states).1 (stepKernel_fst_length N alpha offs nbrs states)

lemma historyOf_getD (N : ℕ) (alpha : ℚ) (offs : List ℕ) (nbrs : List ℤ) :
    ∀ t T states, t < T → (historyOf N alpha offs nbrs T states).getD t 0 =
      (stepKernel N alpha offs nbrs (stateAt N alpha offs nbrs t states)).2 / (N : ℚ) := by
  intro t
  induction t with
  | zero =>
    intro T states hT
    cases T with
    | zero => omega
    | succ T'' => rfl
  | succ t' ih =>
    intro T states hT
    cases T with
    | zero => omega
    | succ T'' => exact ih T'' (stepKernel N alpha offs nbrs states).1 (by omega)

lemma historyOf_take (N : ℕ) (alpha : ℚ) (offs : List ℕ) (nbrs : List ℤ) :
    ∀ t T states, t ≤ T → historyOf N alpha offs nbrs t states =
      (historyOf N alpha offs nbrs T states).take t := by
  intro t
  induction t with
  | zero => intro T states _; rfl
  | succ t' ih =>
    intro T states hT
    cases T with
    | zero => omega
    | succ T'' =>
      rw [show historyOf N alpha offs nbrs (t' + 1) states =
        (stepKernel N alpha offs nbrs states).2 / (N : ℚ) ::
          historyOf N alpha offs nbrs t' (stepKernel N alpha offs nbrs states).1 from rfl]
      rw [show historyOf N alpha offs nbrs (T'' + 1) states =
        (stepKernel N alpha offs nbrs states).2 / (N : ℚ) ::
          historyOf N alpha offs nbrs T'' (stepKernel N alpha offs nbrs states).1 from rfl]
      have h1 : t' + 1 - 1 = t' := rfl
      rw [List.take_cons (by omega), h1, ih T'' (stepKernel N alpha offs nbrs states).1 (by omega)]

/-! ### Alpha-zero facts -/

lemma nodeNext_alpha_zero (offs : List ℕ) (nbrs : List ℤ) (states : List ℚ) (v : ℕ) :
    nodeNext 0 offs nbrs states v = states.getD v 0 := by
  by_cases h : offs.getD (v + 1) 0 = offs.getD v 0
  · simp [nodeNext, h]
  · simp [nodeNext, h]

lemma sum_eq_sum_range_getD (l : List ℚ) :
    l.sum = (Finset.range l.length).sum (fun i => l.getD i 0) := by
  conv_lhs => rw [list_eq_map_range_getD l]
  rw [sum_map_range]

lemma stepKernel_alpha_zero (N : ℕ) (offs : List ℕ) (nbrs : List ℤ) (states : List ℚ)
    (h : states.length = N) :
    stepKernel N 0 offs nbrs states = (states, states.sum) := by
  have hfst : (stepKernel N 0 offs nbrs states).1 = states := by
    rw [stepKernel_fst_eq_map]
    conv_rhs => rw [list_eq_map_range_getD states, h]
    exact List.map_congr_left (fun i _ => nodeNext_alpha_zero offs nbrs states i)
  have hsnd : (stepKernel N 0 offs nbrs states).2 = states.sum := by
    rw [stepKernel_snd, sum_eq_sum_range_getD states, h]
    exact Finset.sum_congr rfl (fun v _ => nodeNext_alpha_zero offs nbrs states v)
  exact Prod.ext hfst hsnd

lemma stateAt_alpha_zero (N : ℕ) (offs : List ℕ) (nbrs : List ℤ) (states : List ℚ)
    (h : states.length = N) :
    ∀ t, stateAt N 0 offs nbrs t states = states := by
  intro t
  induction t with
  | zero => rfl
  | succ t' ih =>
    show stateAt N 0 offs nbrs t' (stepKernel N 0 offs nbrs states).1 = states
    rw [stepKernel_alpha_zero N offs nbrs states h]
    exact ih

/-! ### Reading the states file -/

lemma readStep_foldl_count (N : ℕ) :
    ∀ (lines : List (Option ℚ)) (st : List ℚ × ℕ), st.2 ≤ N →
      (lines.foldl (readStep N) st).2 = min N (st.2 + (lines.filterMap id).length) := by
  intro lines
  induction lines with
  | nil =>
    intro st h
    simp
    omega
  | cons l ls ih =>
    intro st h
    rw [List.foldl_cons]
    cases l with
    | none =>
      have hstep : readStep N st none = st := by
        simp [readStep]
      rw [hstep, ih st h]
      simp [List.filterMap_cons]
    | some val =>
      by_cases hlt : st.2 < N
      · have hstep : readStep N st (some val) = (st.1.set st.2 val, st.2 + 1) := by
          simp [readStep, hlt]
        rw [hstep, ih _ (by show st.2 + 1 ≤ N; omega)]
        simp only [List.filterMap_cons, id, List.length_cons]
        omega
      · have hstep : readStep N st (some val) = st := by
          simp [readStep, hlt]
        rw [hstep, ih st h]
        simp only [List.filterMap_cons, id, List.length_cons]
        omega

lemma readStates_count (N : ℕ) (lines : List (Option ℚ)) :
    (readStates N lines).2 = min N (lines.filterMap id).length := by
  rw [readStates, readStep_foldl_count N lines _ (by show (0 : ℕ) ≤ N; omega)]
  simp

/-! ### Claim theorems -/

/-- C1: the claim states that edges with an out-of-range source are
filtered in both CSR passes, so every entry of `nbrs` lies in `[0, N)`.
The code checks only the target endpoint: on `N = 1` with the single edge
`(5, 0)` the scatter pass writes the out-of-range source `5` into `nbrs`,
which is not a valid node ID of `[0, 1)`.  This theorem evaluates the CSR
build at that failing input. -/
theorem c1_source_unfiltered_at_failing_input :
    (build_csr 1 [((5 : ℤ), (0 : ℤ))]).2 = [5] ∧ ¬ ((5 : ℤ) < (1 : ℤ)) := by
  decide

/-- C2: one kernel step produces a `next` vector of length `N` whose entry
at each `v < N` is `current[v]` when the offset slice is empty and
`(1 - alpha) * current[v] + alpha * ((Σ_{j < e-s} current[nbrs[s+j]]) / (e-s))`
otherwise, and a `global_sum` equal to the sum of all entries of `next`. -/
theorem c2_kernel_step (N : ℕ) (alpha : ℚ) (offs : List ℕ) (nbrs : List ℤ)
    (states : List ℚ) (v : ℕ) (hv : v < N) :
    (stepKernel N alpha offs nbrs states).1.length = N ∧
    (stepKernel N alpha offs nbrs states).2 = ((stepKernel N alpha offs nbrs states).1).sum ∧
    ((stepKernel N alpha offs nbrs states).1.getD v 0 =
      if offs.getD (v + 1) 0 = offs.getD v 0 then states.getD v 0
      else (1 - alpha) * states.getD v 0 +
        alpha * ((Finset.range (offs.getD (v + 1) 0 - offs.getD v 0)).sum
            (fun j => states.getD (nbrs.getD (offs.getD v 0 + j) 0).toNat 0) /
          ((offs.getD (v + 1) 0 - offs.getD v 0 : ℕ) : ℚ))) := by
  refine ⟨stepKernel_fst_length N alpha offs nbrs states,
    stepKernel_snd_eq_sum_fst N alpha offs nbrs states, ?_⟩
  rw [stepKernel_fst_getD N alpha offs nbrs states v hv]
  by_cases hiso : offs.getD (v + 1) 0 = offs.getD v 0
  · rw [if_pos hiso]
    simp only [nodeNext]
    rw [if_pos hiso]
  · rw [if_neg hiso]
    simp only [nodeNext]
    rw [if_neg hiso, sum_map_range]

/-- Witness for C2 at the spec's scenario S2: `N = 3`, one edge `(0, 1)`,
`alpha = 2/5`, states `[2, 0, 5]`; the kernel's global sum is `39/5`. -/
theorem c2_kernel_step_witness :
    1 < 3 ∧ (stepKernel 3 (2/5) [0, 0, 1, 1] [0] [2, 0, 5]).2 = 39/5 := by
  refine ⟨by decide, ?_⟩
  have h := (c2_kernel_step 3 (2/5) [0, 0, 1, 1] [0] [2, 0, 5] 1 (by decide)).2.1
  rw [h]
  norm_num [stepKernel, nodeNext, List.range_succ, List.replicate, List.set]

/-- C3: for `N > 0` the CSR build yields `offsets[0] = 0`, monotonically
non-decreasing offsets, `offsets[N]` equal to the number of kept edges,
and for every target `v < N` the slice
`nbrs[offsets[v] .. offsets[v+1])` is exactly the list of sources of the
kept edges with target `v`; an empty edge list gives all-zero offsets and
an empty `nbrs`.  Kept means the code's acceptance predicate: the target
lies in `[0, N)`. -/
theorem c3_build_csr_correct (N : ℕ) (edges : List (ℤ × ℤ)) (hN : 0 < N) :
    (build_csr N edges).1.getD 0 0 = 0 ∧
    (∀ v, v < N → (build_csr N edges).1.getD v 0 ≤ (build_csr N edges).1.getD (v + 1) 0) ∧
    (build_csr N edges).1.getD N 0 = (edges.filter (acceptB N)).length ∧
    (∀ v, v < N →
      ((build_csr N edges).2.drop ((build_csr N edges).1.getD v 0)).take
        ((build_csr N edges).1.getD (v + 1) 0 - (build_csr N edges).1.getD v 0) =
        bucket edges v) ∧
    (edges = [] →
      (build_csr N edges).1 = List.replicate (N + 1) 0 ∧ (build_csr N edges).2 = []) := by
  refine ⟨?_, ?_, ?_, ?_, ?_⟩
  · rw [build_csr_fst, offsetsOf_getD N edges 0 (by omega), offFun_zero]
  · intro v hv
    rw [build_csr_fst, offsetsOf_getD N edges v (by omega),
      offsetsOf_getD N edges (v + 1) (by omega)]
    exact offFun_mono edges (by omega)
  · rw [build_csr_fst, offsetsOf_getD N edges N (le_refl N)]
    exact offFun_total N edges
  · intro v hv
    rw [build_csr_fst, offsetsOf_getD N edges v (by omega),
      offsetsOf_getD N edges (v + 1) (by omega), offFun_succ]
    have hsub : offFun edges v + cnt edges v - offFun edges v = cnt edges v := by omega
    rw [hsub]
    exact build_csr_slice N edges v hv
  · intro he
    subst he
    exact build_csr_nil N

/-- Witness for C3 on the two-cycle graph: both edges are kept, so
`offsets[2] = 2`. -/
theorem c3_build_csr_correct_witness :
    0 < 2 ∧ (build_csr 2 [((0 : ℤ), (1 : ℤ)), ((1 : ℤ), (0 : ℤ))]).1.getD 2 0 = 2 := by
  refine ⟨by decide, ?_⟩
  have h := (c3_build_csr_correct 2 [((0 : ℤ), (1 : ℤ)), ((1 : ℤ), (0 : ℤ))] (by decide)).2.2.1
  rw [h]
  decide

/-- C4: a run of `T` steps yields a history of length exactly `T` and a
final state vector of length `N`; after `t` steps the history is exactly
the first `t` entries (so it grows by one per step, in step order), and
entry `t` is the global sum of step `t` divided by `N`. -/
theorem c4_run_postconditions (N : ℕ) (alpha : ℚ) (offs : List ℕ) (nbrs : List ℤ)
    (T : ℕ) (states : List ℚ) (hlen : states.length = N) :
    (run N alpha offs nbrs T states).2.length = T ∧
    (run N alpha offs nbrs T states).1.length = N ∧
    (∀ t, t ≤ T → (run N alpha offs nbrs t states).2 =
      ((run N alpha offs nbrs T states).2).take t) ∧
    (∀ t, t < T → (run N alpha offs nbrs T states).2.getD t 0 =
      (stepKernel N alpha offs nbrs (stateAt N alpha offs nbrs t states)).2 / (N : ℚ)) := by
  have hsnd : ∀ T', (run N alpha offs nbrs T' states).2 =
      historyOf N alpha offs nbrs T' states := by
    intro T'
    rw [run_eq]
  have hfst : (run N alpha offs nbrs T states).1 = stateAt N alpha offs nbrs T states := by
    rw [run_eq]
  refine ⟨?_, ?_, ?_, ?_⟩
  · rw [hsnd]
    exact historyOf_length N alpha offs nbrs T states
  · rw [hfst]
    exact stateAt_length N alpha offs nbrs T states hlen
  · intro t ht
    rw [hsnd, hsnd]
    exact historyOf_take N alpha offs nbrs t T states ht
  · intro t ht
    rw [hsnd]
    exact historyOf_getD N alpha offs nbrs t T states ht

/-- Witness for C4 on the two-cycle scenario with `T = 3`. -/
theorem c4_run_postconditions_witness :
    ([(1 : ℚ), 0].length = 2) ∧ (run 2 (1/2) [0, 1, 2] [1, 0] 3 [1, 0]).2.length = 3 :=
  ⟨by decide, (c4_run_postconditions 2 (1/2) [0, 1, 2] [1, 0] 3 [1, 0] (by decide)).1⟩

/-- C5: with `alpha = 0` every step is the identity on the states, so for
any graph the final states equal the initial states and every history
entry equals the mean of the initial states. -/
theorem c5_alpha_zero (N : ℕ) (offs : List ℕ) (nbrs : List ℤ) (T : ℕ)
    (states : List ℚ) (hlen : states.length = N) :
    (run N 0 offs nbrs T states).1 = states ∧
    (∀ t, t < T → (run N 0 offs nbrs T states).2.getD t 0 = states.sum / (N : ℚ)) := by
  have hfst : (run N 0 offs nbrs T states).1 = stateAt N 0 offs nbrs T states := by
    rw [run_eq]
  have hsnd : (run N 0 offs nbrs T states).2 = historyOf N 0 offs nbrs T states := by
    rw [run_eq]
  constructor
  · rw [hfst]
    exact stateAt_alpha_zero N offs nbrs states hlen T
  · intro t ht
    rw [hsnd, historyOf_getD N 0 offs nbrs t T states ht,
      stateAt_alpha_zero N offs nbrs states hlen t,
      stepKernel_alpha_zero N offs nbrs states hlen]

/-- Witness for C5: a two-node graph run for four steps with `alpha = 0`
returns the initial states unchanged. -/
theorem c5_alpha_zero_witness :
    ([(3 : ℚ), 7].length = 2) ∧ (run 2 0 [0, 1, 2] [1, 0] 4 [3, 7]).1 = [3, 7] :=
  ⟨by decide, (c5_alpha_zero 2 [0, 1, 2] [1, 0] 4 [3, 7] (by decide)).1⟩

/-- C6: a node `v < N` with an empty offset slice (`offsets[v+1] = offsets[v]`,
no incoming edges) is left unchanged by every kernel step, for any `alpha`,
so after any number of steps its final state equals its initial state. -/
theorem c6_isolated_fixed (N : ℕ) (alpha : ℚ) (offs : List ℕ) (nbrs : List ℤ)
    (T : ℕ) (states : List ℚ) (v : ℕ) (hv : v < N)
    (hiso : offs.getD (v + 1) 0 = offs.getD v 0) :
    (∀ cur : List ℚ, (stepKernel N alpha offs nbrs cur).1.getD v 0 = cur.getD v 0) ∧
    (run N alpha offs nbrs T states).1.getD v 0 = states.getD v 0 := by
  have hstep : ∀ cur : List ℚ,
      (stepKernel N alpha offs nbrs cur).1.getD v 0 = cur.getD v 0 := by
    intro cur
    rw [stepKernel_fst_getD N alpha offs nbrs cur v hv]
    simp only [nodeNext]
    rw [if_pos hiso]
  refine ⟨hstep, ?_⟩
  have hfst : (run N alpha offs nbrs T states).1 = stateAt N alpha offs nbrs T states := by
    rw [run_eq]
  rw [hfst]
  clear hfst
  induction T generalizing states with
  | zero => rfl
  | succ T' ih =>
    show (stateAt N alpha offs nbrs T' (stepKernel N alpha offs nbrs states).1).getD v 0 = _
    rw [ih (stepKernel N alpha offs nbrs states).1, hstep states]

/-- Witness for C6 at scenario S2: node 0 of a three-node graph with the
single edge `(0, 1)` has no in-edges and keeps its state `2`. -/
theorem c6_isolated_fixed_witness :
    (0 < 3 ∧ ([0, 0, 1, 1] : List ℕ).getD 1 0 = ([0, 0, 1, 1] : List ℕ).getD 0 0) ∧
    (run 3 (2/5) [0, 0, 1, 1] [0] 1 [2, 0, 5]).1.getD 0 0 = 2 :=
  ⟨⟨by decide, by decide⟩,
    (c6_isolated_fixed 3 (2/5) [0, 0, 1, 1] [0] 1 [2, 0, 5] 0 (by decide) (by decide)).2⟩

/-- C7: scenario S1.  On `N = 2`, edges `(0,1)` and `(1,0)`, initial states
`[1, 0]`, `T = 2`, `alpha = 1/2`, the run yields final states `[1/2, 1/2]`
and history `[1/2, 1/2]`; all values are dyadic rationals, on which the
double-precision evaluation is exact. -/
theorem c7_two_cycle :
    run 2 (1/2) (build_csr 2 [((0 : ℤ), (1 : ℤ)), ((1 : ℤ), (0 : ℤ))]).1
        (build_csr 2 [((0 : ℤ), (1 : ℤ)), ((1 : ℤ), (0 : ℤ))]).2 2 [1, 0] =
      ([1/2, 1/2], [1/2, 1/2]) := by
  rw [show build_csr 2 [((0 : ℤ), (1 : ℤ)), ((1 : ℤ), (0 : ℤ))] = ([0, 1, 2], [1, 0]) from
    by decide]
  norm_num [run, runLoop, stepKernel, nodeNext, List.range_succ, List.replicate, List.set]

/-- C8: when the states file parses to fewer than `N` entries the driver
fails with exit code 4; the failure is modelled as `Except.error`, which
carries no output states and no history, matching the program's early
return before either output file is opened. -/
theorem c8_short_states (Nll : ℤ) (rawEdges : List (ℤ × ℤ)) (stateLines : List (Option ℚ))
    (T : ℕ) (alpha : ℚ) (hN : 0 < Nll)
    (hshort : (stateLines.filterMap id).length < Nll.toNat) :
    driver Nll rawEdges stateLines T alpha = Except.error 4 := by
  simp only [driver]
  rw [if_neg (by omega), if_pos (by rw [readStates_count]; omega)]

/-- Witness for C8: one parsed entry for `N = 2` exits with code 4. -/
theorem c8_short_states_witness :
    (0 : ℤ) < 2 ∧
    ((([some (1 : ℚ), none] : List (Option ℚ)).filterMap id).length < (2 : ℤ).toNat) ∧
    driver 2 [] [some 1, none] 5 (1/2) = Except.error 4 :=
  ⟨by decide, by decide,
    c8_short_states 2 [] [some 1, none] 5 (1/2) (by decide) (by decide)⟩

lemma build_csr_single (N : ℕ) (u v : ℤ) (h : 0 ≤ v ∧ v < (N : ℤ)) :
    (build_csr N [(u, v)]).2 = [u] ∧ (build_csr N [(u, v)]).1.getD N 0 = 1 := by
  have hvN : v.toNat < N := by omega
  have hv' : ((v.toNat : ℤ)) = v := Int.toNat_of_nonneg h.1
  have hcnt1 : cnt [(u, v)] v.toNat = 1 := cnt_single_eq (u, v) v.toNat hv'.symm
  have htot : offFun [(u, v)] N = 1 := by
    rw [offFun_total]
    simp [acceptB, h.1, h.2]
  have hoffv : offFun [(u, v)] v.toNat = 0 := by
    apply Finset.sum_eq_zero
    intro w hw
    simp only [Finset.mem_range] at hw
    have hne : (u, v).2 ≠ (w : ℤ) := by
      show v ≠ (w : ℤ)
      omega
    exact cnt_single_ne (u, v) w hne
  constructor
  · have hlen : (build_csr N [(u, v)]).2.length = 1 := by
      rw [build_csr_nbrs_length, htot]
    have hsl := build_csr_slice N [(u, v)] v.toNat hvN
    rw [hoffv, hcnt1, List.drop_zero] at hsl
    have htake : (build_csr N [(u, v)]).2.take 1 = (build_csr N [(u, v)]).2 := by
      rw [← hlen]
      exact List.take_length _
    rw [htake] at hsl
    rw [hsl]
    exact bucket_single_eq (u, v) v.toNat hv'.symm
  · rw [build_csr_fst, offsetsOf_getD N _ N (le_refl N), htot]

/-- C9: edge endpoints are parsed as 64-bit integers and narrowed to
32-bit two's-complement values before any range check, so a source
endpoint that is out of range as written but whose truncated value lands
in `[0, N)` is accepted and stored under that truncated node ID instead of
being dropped. -/
theorem c9_truncation (N : ℕ) (u v : ℤ)
    (huOut : ¬ (0 ≤ u ∧ u < (N : ℤ)))
    (hu32 : 0 ≤ toInt32 u ∧ toInt32 u < (N : ℤ))
    (hv32 : 0 ≤ toInt32 v ∧ toInt32 v < (N : ℤ)) :
    ingest [(u, v)] = [(toInt32 u, toInt32 v)] ∧
    (build_csr N (ingest [(u, v)])).2 = [toInt32 u] ∧
    (build_csr N (ingest [(u, v)])).1.getD N 0 = 1 := by
  have hing : ingest [(u, v)] = [(toInt32 u, toInt32 v)] := rfl
  refine ⟨hing, ?_, ?_⟩
  · rw [hing]
    exact (build_csr_single N (toInt32 u) (toInt32 v) hv32).1
  · rw [hing]
    exact (build_csr_single N (toInt32 u) (toInt32 v) hv32).2

/-- Witness for C9: the 64-bit value `2^32` is far outside `[0, 1)` but
truncates to the accepted node ID `0`, which is scattered into `nbrs`. -/
theorem c9_truncation_witness :
    ¬ (0 ≤ (2 ^ 32 : ℤ) ∧ (2 ^ 32 : ℤ) < ((1 : ℕ) : ℤ)) ∧
    (build_csr 1 (ingest [((2 ^ 32 : ℤ), (0 : ℤ))])).2 = [0] := by
  constructor
  · decide
  · have h := (c9_truncation 1 (2 ^ 32) 0 (by decide) (by decide) (by decide)).2.1
    rw [h]
    decide

/-- C10: the CSR build preserves input order within each target:
`nbrs[offsets[v] + k]` is the source of the `(k+1)`-th kept edge with
target `v` in input order; consequently the build is invariant under any
change of the edge list that preserves, for every target, the sequence of
sources in input order (in particular any permutation preserving
per-target relative order), and downstream runs on the two CSRs agree. -/
theorem c10_order_and_stability (N : ℕ) (edges edges2 : List (ℤ × ℤ))
    (hsame : ∀ v, v < N → bucket edges v = bucket edges2 v) :
    (∀ v k, v < N →
      k < (build_csr N edges).1.getD (v + 1) 0 - (build_csr N edges).1.getD v 0 →
      (build_csr N edges).2.getD ((build_csr N edges).1.getD v 0 + k) 0 =
        (bucket edges v).getD k 0) ∧
    build_csr N edges = build_csr N edges2 ∧
    (∀ alpha T st0, run N alpha (build_csr N edges).1 (build_csr N edges).2 T st0 =
      run N alpha (build_csr N edges2).1 (build_csr N edges2).2 T st0) := by
  have cnteq : ∀ v, v < N → cnt edges v = cnt edges2 v := by
    intro v hv
    rw [cnt, cnt, hsame v hv]
  have offeq : ∀ k, k ≤ N → offFun edges k = offFun edges2 k := by
    intro k hk
    apply Finset.sum_congr rfl
    intro v hv
    simp only [Finset.mem_range] at hv
    exact cnteq v (by omega)
  have hindeg : indeg N edges = indeg N edges2 := by
    apply List.ext_getElem (by rw [indeg_length, indeg_length])
    intro i h1 h2
    have hi : i < N := by rw [indeg_length] at h1; exact h1
    rw [← List.getD_eq_getElem _ 0 h1, ← List.getD_eq_getElem _ 0 h2,
      indeg_getD N edges i hi, indeg_getD N edges2 i hi]
    exact cnteq i hi
  have hoffsets : (build_csr N edges).1 = (build_csr N edges2).1 := by
    rw [build_csr_fst, build_csr_fst, offsetsOf, offsetsOf, hindeg]
  have hnbrs : (build_csr N edges).2 = (build_csr N edges2).2 := by
    have hlenA : (build_csr N edges).2.length = offFun edges N := build_csr_nbrs_length N edges
    have hlenB : (build_csr N edges2).2.length = offFun edges2 N :=
      build_csr_nbrs_length N edges2
    apply List.ext_getElem (by rw [hlenA, hlenB, offeq N (le_refl N)])
    intro j h1 h2
    have hj : j < offFun edges N := by rw [← hlenA]; exact h1
    obtain ⟨v, hv, hle, hlt⟩ := offFun_decompose edges N j hj
    have hksub : j - offFun edges v < cnt edges v := by
      have := offFun_succ edges v
      omega
    rw [← List.getD_eq_getElem _ 0 h1, ← List.getD_eq_getElem _ 0 h2]
    have e1 : (build_csr N edges).2.getD j 0 = (bucket edges v).getD (j - offFun edges v) 0 := by
      have hx := build_csr_nbrs_getD N edges v (j - offFun edges v) hv hksub
      rw [Nat.add_sub_cancel' hle] at hx
      exact hx
    have hle2 : offFun edges2 v ≤ j := by
      rw [← offeq v (by omega)]
      exact hle
    have hksub2 : j - offFun edges2 v < cnt edges2 v := by
      rw [← offeq v (by omega), ← cnteq v hv]
      exact hksub
    have e2 : (build_csr N edges2).2.getD j 0 =
        (bucket edges2 v).getD (j - offFun edges2 v) 0 := by
      have hx := build_csr_nbrs_getD N edges2 v (j - offFun edges2 v) hv hksub2
      rw [Nat.add_sub_cancel' hle2] at hx
      exact hx
    rw [e1, e2, ← hsame v hv, offeq v (by omega)]
  refine ⟨?_, Prod.ext hoffsets hnbrs, ?_⟩
  · intro v k hv hk
    have hoffv : (build_csr N edges).1.getD v 0 = offFun edges v := by
      rw [build_csr_fst]
      exact offsetsOf_getD N edges v (by omega)
    have hoffv1 : (build_csr N edges).1.getD (v + 1) 0 = offFun edges (v + 1) := by
      rw [build_csr_fst]
      exact offsetsOf_getD N edges (v + 1) (by omega)
    rw [hoffv, hoffv1, offFun_succ] at hk
    rw [hoffv]
    exact build_csr_nbrs_getD N edges v k hv (by omega)
  · intro alpha T st0
    rw [hoffsets, hnbrs]

/-- Witness for C10: the two-cycle edge list and its swap preserve
per-target order vacuously (one edge per target), so the CSR builds are
equal. -/
theorem c10_order_and_stability_witness :
    build_csr 2 [((0 : ℤ), (1 : ℤ)), ((1 : ℤ), (0 : ℤ))] =
      build_csr 2 [((1 : ℤ), (0 : ℤ)), ((0 : ℤ), (1 : ℤ))] :=
  (c10_order_and_stability 2 [((0 : ℤ), (1 : ℤ)), ((1 : ℤ), (0 : ℤ))]
    [((1 : ℤ), (0 : ℤ)), ((0 : ℤ), (1 : ℤ))] (by decide)).2.1

end ParallelUpdate
